import Mathlib

/-
Verification development for the Yfinance_data repository.

The definitions below are a shallow embedding of the Python sources:

  * DataStore.py        : scheduling gate, ticker-list normalization, the
                          batched parallel downloader with one retry pass,
                          and the pickle save / load round trip;
  * optimize_pickle.py  : the per-symbol conversion loop of optimize_pickle;
  * plk.py              : only referenced for context.

Modelling conventions, stated once here:

  * A pandas DataFrame of daily prices is a `Table`: a list of int64
    timestamp labels (a pandas DatetimeIndex stores one timezone for the
    whole index, so the timezone is a single `Option String` field), a
    column list and a rectangular block of rational numbers.
  * `dict` values built by assignment in a loop are association lists built
    with `dictInsert`, which overwrites an existing key in place and
    otherwise appends, exactly like insertion into a Python dict.
  * The network call `yf.Ticker(code).history(...)` is an oracle
    `fetch : Nat -> String -> Option Table`; the first argument is the
    attempt number (0 = first dispatch, 1 = retry pass), since a live
    network call may succeed on retry after failing first.  `none` models
    every failure mode collapsed by download_single_stock: an exception,
    a timeout, or an empty frame.
  * `as_completed` yields futures in completion order; the properties
    proved below (membership of the result dict and of the failed list)
    do not depend on that order, and the embedding processes each batch
    in submission order.
  * Fallible pandas conversions inside save_stock_data are an oracle
    `conv : Table -> Except Unit Split` in `save_stock_data_conv`; the
    total default conversion (timezone localization followed by
    to_dict split) is `defaultConv`.
-/

/-- Constant from DataStore.py line 11. -/
def BATCH_SIZE : Nat := 158

/-- Constant from DataStore.py line 18. -/
def ACTUAL_RUN_HOUR : Nat := 9

/-- Constant from DataStore.py line 19. -/
def ACTUAL_RUN_MINUTE : Nat := 29

/-- Constant from DataStore.py line 20. -/
def CUTOFF_HOUR : Nat := 10

/-- Constant from DataStore.py line 21. -/
def CUTOFF_MINUTE : Nat := 0

/-- Embedding of check_should_run (DataStore.py lines 23-62) as a pure
predicate on the wall clock and the RUN_FORCE flag.  `weekday` is 0=Monday
... 6=Sunday as in Python.  The branch taken before 9:29 sleeps and then
returns True; the sleep has no bearing on the returned decision, so it is
dropped.  Note the order of the checks: the weekend check comes first,
before the force_run check. -/
def check_should_run (weekday : Nat) (force_run : Bool) (hour minute : Nat) : Bool :=
  if weekday ≥ 5 then
    false
  else if force_run then
    true
  else
    let current_time_minutes := hour * 60 + minute
    let actual_run_minutes := ACTUAL_RUN_HOUR * 60 + ACTUAL_RUN_MINUTE
    let cutoff_minutes := CUTOFF_HOUR * 60 + CUTOFF_MINUTE
    if current_time_minutes < actual_run_minutes then
      true
    else if actual_run_minutes ≤ current_time_minutes ∧ current_time_minutes < cutoff_minutes then
      true
    else
      false

/-- Python str.endswith, written on the character list of the string so
that it evaluates by kernel reduction. -/
def strEndsWith (s suffix : String) : Bool :=
  List.isSuffixOf suffix.data s.data

/-- Python str.startswith, written on the character list of the string. -/
def strStartsWith (s pre : String) : Bool :=
  List.isPrefixOf pre.data s.data

/-- The Python slice s[:-n] (drop the last n characters), written on the
character list of the string. -/
def strDropRight (s : String) (n : Nat) : String :=
  String.mk (s.data.take (s.data.length - n))

/-- Embedding of the per-ticker suffix normalization in read_stock_list
(DataStore.py line 69): keep tickers starting with a caret or already
ending in .NS, append .NS to everything else. -/
def normalizeTicker (t : String) : String :=
  if strStartsWith t "^" || strEndsWith t ".NS" then t else t ++ ".NS"

/-- Embedding of read_stock_list (DataStore.py lines 64-73).  The input is
the SYMBOL column of the CSV when the read succeeds, `none` when reading
raises; on a read error the function returns the empty list. -/
def read_stock_list (rows : Option (List String)) : List String :=
  match rows with
  | none => []
  | some symbols => symbols.map normalizeTicker

/-- Embedding of the batch slicing loop of download_batch_stocks
(DataStore.py lines 100-101): `for batch_start in range(0, total, B):
batch = tickers[batch_start:batch_start+B]`, rendered as take/drop
recursion.  Python range with step 0 raises, so step 0 yields no slices. -/
def batches (B : Nat) (l : List α) : List (List α) :=
  if _hB : B = 0 then []
  else
    match l with
    | [] => []
    | x :: xs => (x :: xs).take B :: batches B ((x :: xs).drop B)
termination_by l.length
decreasing_by
  simp only [List.length_drop, List.length_cons]
  omega

theorem batches_nil (B : Nat) : batches B ([] : List α) = [] := by
  unfold batches
  simp

theorem batches_cons (B : Nat) (hB : B ≠ 0) (x : α) (xs : List α) :
    batches B (x :: xs) = (x :: xs).take B :: batches B ((x :: xs).drop B) := by
  conv_lhs => unfold batches
  simp [hB]

theorem batches_join (B : Nat) (hB : 0 < B) (l : List α) :
    (batches B l).flatten = l := by
  have H : ∀ n (l : List α), l.length ≤ n → (batches B l).flatten = l := by
    intro n
    induction n with
    | zero =>
      intro l hl
      have : l = [] := List.length_eq_zero.mp (Nat.le_zero.mp hl)
      subst this
      simp [batches_nil]
    | succ n ih =>
      intro l hl
      match l with
      | [] => simp [batches_nil]
      | x :: xs =>
        simp only [List.length_cons] at hl
        rw [batches_cons B (Nat.pos_iff_ne_zero.mp hB) x xs]
        rw [List.flatten_cons]
        rw [ih ((x :: xs).drop B)
          (by simp only [List.length_drop, List.length_cons]; omega)]
        exact List.take_append_drop B (x :: xs)
  exact H l.length l le_rfl

theorem batches_sizes (B : Nat) (l : List α) :
    ∀ b ∈ batches B l, b.length ≤ B := by
  have H : ∀ n (l : List α), l.length ≤ n → ∀ b ∈ batches B l, b.length ≤ B := by
    intro n
    induction n with
    | zero =>
      intro l hl b hb
      have : l = [] := List.length_eq_zero.mp (Nat.le_zero.mp hl)
      subst this
      simp [batches_nil] at hb
    | succ n ih =>
      intro l hl b hb
      match l with
      | [] => simp [batches_nil] at hb
      | x :: xs =>
        simp only [List.length_cons] at hl
        by_cases hB : B = 0
        · subst hB
          unfold batches at hb
          simp at hb
        · rw [batches_cons B hB x xs] at hb
          rcases List.mem_cons.mp hb with h | h
          · subst h
            simp
          · exact ih ((x :: xs).drop B)
              (by simp only [List.length_drop, List.length_cons]; omega) b h
  exact H l.length l le_rfl

theorem batches_length (B : Nat) (hB : 0 < B) (l : List α) :
    (batches B l).length = (l.length + B - 1) / B := by
  have H : ∀ n (l : List α), l.length ≤ n →
      (batches B l).length = (l.length + B - 1) / B := by
    intro n
    induction n with
    | zero =>
      intro l hl
      have : l = [] := List.length_eq_zero.mp (Nat.le_zero.mp hl)
      subst this
      rw [batches_nil]
      simp only [List.length_nil, Nat.zero_add]
      exact (Nat.div_eq_of_lt (by omega)).symm
    | succ n ih =>
      intro l hl
      match l with
      | [] =>
        rw [batches_nil]
        simp only [List.length_nil, Nat.zero_add]
        exact (Nat.div_eq_of_lt (by omega)).symm
      | x :: xs =>
        simp only [List.length_cons] at hl
        rw [batches_cons B (Nat.pos_iff_ne_zero.mp hB) x xs]
        rw [List.length_cons]
        rw [ih ((x :: xs).drop B)
          (by simp only [List.length_drop, List.length_cons]; omega)]
        simp only [List.length_drop, List.length_cons]
        rcases le_or_lt B (xs.length + 1) with hle | hlt
        · have h1 : xs.length + 1 - B + B - 1 = xs.length := by omega
          have h2 : xs.length + 1 + B - 1 = xs.length + B := by omega
          rw [h1, h2, Nat.add_div_right _ hB]
        · have h1 : xs.length + 1 - B = 0 := by omega
          have h2 : (0 + B - 1) / B = 0 := Nat.div_eq_of_lt (by omega)
          have h3 : (xs.length + 1 + B - 1) / B = 1 := by
            apply Nat.div_eq_of_lt_le
            · omega
            · omega
          rw [h1, h2, h3]
  exact H l.length l le_rfl

/-- A pandas DataFrame of prices: int64 timestamp labels, one index
timezone for the whole index (none = timezone naive), column names and a
rectangular block of rational values. -/
structure Table where
  index : List Int
  idxTz : Option String
  columns : List String
  data : List (List Rat)
deriving DecidableEq, Repr

/-- The dictionary produced by DataFrame.to_dict with orient split: the
keys are exactly index, columns and data, and the index entries are the
timestamps of the frame (they keep their timezone). -/
structure Split where
  index : List Int
  idxTz : Option String
  columns : List String
  data : List (List Rat)
deriving DecidableEq, Repr

/-- A Python value held in the stock_data dict handed to save_stock_data:
either a DataFrame (has a to_dict attribute) or some other value (no
to_dict attribute and not a dict shaped like a split frame). -/
inductive PyVal where
  | df (t : Table)
  | other (n : Nat)
deriving DecidableEq, Repr

/-- A Python value held in the pickled dict: either a split-format dict or
some other value. -/
inductive SavedVal where
  | split (s : Split)
  | other (n : Nat)
deriving DecidableEq, Repr

/-- Key list of an association list standing for a Python dict. -/
def keysOf (m : List (String × α)) : List String :=
  m.map Prod.fst

/-- Assignment d[k] = v into a Python dict: overwrite in place when the key
exists, append otherwise (Python dicts preserve insertion order). -/
def dictInsert (m : List (String × α)) (k : String) (v : α) : List (String × α) :=
  if k ∈ keysOf m then
    m.map (fun p => if p.1 = k then (k, v) else p)
  else
    m ++ [(k, v)]

theorem keysOf_append (m₁ m₂ : List (String × α)) :
    keysOf (m₁ ++ m₂) = keysOf m₁ ++ keysOf m₂ := by
  simp [keysOf]

theorem mem_keysOf_dictInsert (m : List (String × α)) (k : String) (v : α) (s : String) :
    s ∈ keysOf (dictInsert m k v) ↔ s ∈ keysOf m ∨ s = k := by
  unfold dictInsert
  by_cases h : k ∈ keysOf m
  · simp only [if_pos h]
    constructor
    · intro hs
      rcases List.mem_map.mp hs with ⟨p, hp, hps⟩
      rcases List.mem_map.mp hp with ⟨q, hq, hqp⟩
      by_cases hq1 : q.1 = k
      · right
        rw [← hps, ← hqp]
        simp [hq1]
      · left
        rw [← hps, ← hqp]
        simp only [if_neg hq1]
        exact List.mem_map.mpr ⟨q, hq, rfl⟩
    · intro hs
      rcases hs with hs | hs
      · rcases List.mem_map.mp hs with ⟨q, hq, hqs⟩
        apply List.mem_map.mpr
        refine ⟨if q.1 = k then (k, v) else q, List.mem_map.mpr ⟨q, hq, rfl⟩, ?_⟩
        by_cases hq1 : q.1 = k
        · simp [hq1, ← hqs]
        · simp [hq1, ← hqs]
      · subst hs
        rcases List.mem_map.mp h with ⟨q, hq, hqs⟩
        apply List.mem_map.mpr
        refine ⟨(s, v), ?_, rfl⟩
        apply List.mem_map.mpr
        exact ⟨q, hq, by simp [hqs]⟩
  · simp only [if_neg h, keysOf_append]
    simp [keysOf, List.mem_append, or_comm]

theorem mem_dictInsert (m : List (String × α)) (k : String) (v : α) (x : String × α) :
    x ∈ dictInsert m k v → x ∈ m ∨ x = (k, v) := by
  unfold dictInsert
  by_cases h : k ∈ keysOf m
  · simp only [if_pos h]
    intro hx
    rcases List.mem_map.mp hx with ⟨q, hq, hqx⟩
    by_cases hq1 : q.1 = k
    · right
      rw [← hqx]
      simp [hq1]
    · left
      rw [← hqx]
      simpa [hq1] using hq
  · simp only [if_neg h]
    intro hx
    rcases List.mem_append.mp hx with hx | hx
    · exact Or.inl hx
    · exact Or.inr (List.mem_singleton.mp hx)

theorem dictInsert_not_mem (m : List (String × α)) (k : String) (v : α)
    (h : k ∉ keysOf m) : dictInsert m k v = m ++ [(k, v)] := by
  unfold dictInsert
  simp [h]

/-- Embedding of the key cleaning in save_stock_data (DataStore.py line
169): `k[:-3] if k.endswith(".NS") else k`. -/
def stripNS (k : String) : String :=
  if strEndsWith k ".NS" then strDropRight k 3 else k

/-- Embedding of the index normalization in save_stock_data (DataStore.py
lines 172-175): when the index dtype is not timezone aware, localize it to
Asia/Kolkata; a timezone aware index is left untouched.  Asia/Kolkata has
no daylight saving transitions in the era of daily price data, so the
ambiguous and nonexistent policies of tz_localize never fire and the
timestamp labels are unchanged. -/
def localizeIfNeeded (t : Table) : Table :=
  if t.idxTz.isSome then t
  else { t with idxTz := some "Asia/Kolkata" }

/-- Embedding of DataFrame.to_dict with orient split (DataStore.py line
176): the frame content is repackaged unchanged. -/
def toSplit (t : Table) : Split :=
  ⟨t.index, t.idxTz, t.columns, t.data⟩

/-- Embedding of pd.DataFrame(index=..., columns=..., data=...) applied to
a split dict (DataStore.py line 197): rebuilds the frame with the same
index (timestamps keep their timezone), columns and data. -/
def fromSplit (s : Split) : Table :=
  ⟨s.index, s.idxTz, s.columns, s.data⟩

/-- The conversion applied per DataFrame inside save_stock_data: timezone
normalization followed by to_dict split.  Total on well formed tables. -/
def defaultConv (t : Table) : Except Unit Split :=
  Except.ok (toSplit (localizeIfNeeded t))

/-- Embedding of the dictionary building part of save_stock_data
(DataStore.py lines 166-182), with the fallible pandas conversion as the
oracle `conv`.  The source wraps the WHOLE conversion loop and the file
write in one try block, so the first conversion error aborts the function,
which then returns None and writes nothing: the result is
`Except.error ()` in that case, and `Except.ok converted_data` (the exact
mapping pickled to disk) when every conversion succeeds. -/
def saveConvStep (conv : Table → Except Unit Split)
    (acc : Except Unit (List (String × SavedVal))) (p : String × PyVal) :
    Except Unit (List (String × SavedVal)) := do
  let cd ← acc
  let new_key := stripNS p.1
  match p.2 with
  | PyVal.df t => do
      let s ← conv t
      pure (dictInsert cd new_key (SavedVal.split s))
  | PyVal.other n => pure (dictInsert cd new_key (SavedVal.other n))

def save_stock_data_conv (conv : Table → Except Unit Split)
    (stock_data : List (String × PyVal)) : Except Unit (List (String × SavedVal)) :=
  stock_data.foldl (saveConvStep conv) (Except.ok [])

/-- Per-value conversion of save_stock_data (DataStore.py lines 170-178):
values with a to_dict attribute are normalized and converted to split
format, every other value is stored unchanged. -/
def saveEntryVal : PyVal → SavedVal
  | PyVal.df t => SavedVal.split (toSplit (localizeIfNeeded t))
  | PyVal.other n => SavedVal.other n

/-- save_stock_data (DataStore.py lines 159-185) with the default
conversion, which always succeeds: returns the mapping written to the
pickle file. -/
def save_stock_data (stock_data : List (String × PyVal)) : List (String × SavedVal) :=
  stock_data.foldl
    (fun cd p => dictInsert cd (stripNS p.1) (saveEntryVal p.2))
    []

/-- Embedding of load_stock_data (DataStore.py lines 187-202): every value
that is a dict with exactly the keys index, columns and data is rebuilt
into a DataFrame in place; every other value is kept as is. -/
def load_stock_data (data : List (String × SavedVal)) : List (String × PyVal) :=
  data.map (fun p =>
    match p.2 with
    | SavedVal.split s => (p.1, PyVal.df (fromSplit s))
    | SavedVal.other n => (p.1, PyVal.other n))

/-- Embedding of the conversion loop of optimize_pickle
(optimize_pickle.py lines 104-110): each value is converted through the
oracle `conv` (standing for convert_value_to_df) and, when the conversion
raises, THAT SYMBOL ALONE keeps its original value; the loop then
continues with the remaining symbols. -/
def optimize_convert (conv : PyVal → Except Unit PyVal)
    (data : List (String × PyVal)) : List (String × PyVal) :=
  data.foldl
    (fun cd p =>
      dictInsert cd p.1
        (match conv p.2 with
         | Except.ok c => c
         | Except.error _ => p.2))
    []

theorem save_stock_data_conv_default (stock_data : List (String × PyVal)) :
    save_stock_data_conv defaultConv stock_data = Except.ok (save_stock_data stock_data) := by
  unfold save_stock_data_conv save_stock_data
  have H : ∀ (l : List (String × PyVal)) (cd : List (String × SavedVal)),
      l.foldl (saveConvStep defaultConv) (Except.ok cd) =
      Except.ok (l.foldl
        (fun cd p => dictInsert cd (stripNS p.1) (saveEntryVal p.2))
        cd) := by
    intro l
    induction l with
    | nil => intro cd; rfl
    | cons p rest ih =>
      intro cd
      match p with
      | (k, PyVal.df t) =>
        simp only [List.foldl_cons, saveConvStep]
        exact ih _
      | (k, PyVal.other n) =>
        simp only [List.foldl_cons, saveConvStep]
        exact ih _
  exact H stock_data []

/-- Embedding of download_single_stock (DataStore.py lines 75-90): calls
the provider through the fetch oracle and returns the pair
(stock_code, data or None).  An exception, a timeout and an empty frame
all come back as `none` from the oracle, matching the source, which
returns (stock_code, None) in each of those cases. -/
def download_single_stock (fetch : Nat → String → Option Table)
    (attempt : Nat) (stock_code : String) : String × Option Table :=
  (stock_code, fetch attempt stock_code)

/-- Accumulator threaded through one dispatcher pass: the all_data dict,
the failed list, and the list of network calls issued so far. -/
structure BatchAcc where
  all_data : List (String × Table)
  failed : List String
  calls : List String
deriving Repr

/-- Embedding of the dispatcher loop for one batch (DataStore.py lines
108-120 and, with attempt 1, the retry loop of lines 136-146): every
ticker of the batch is submitted (recorded in calls), a successful result
is assigned into the all_data dict and a failure is appended to the failed
list.  as_completed drains futures in completion order; the batch is
processed here in submission order, which yields the same dict keys and
the same failed-list membership. -/
def dispatchBatch (fetch : Nat → String → Option Table) (attempt : Nat) :
    List String → BatchAcc → BatchAcc
  | [], acc => acc
  | t :: rest, acc =>
      let r := download_single_stock fetch attempt t
      match r.2 with
      | some d =>
          dispatchBatch fetch attempt rest
            { acc with all_data := dictInsert acc.all_data r.1 d, calls := acc.calls ++ [r.1] }
      | none =>
          dispatchBatch fetch attempt rest
            { acc with failed := acc.failed ++ [r.1], calls := acc.calls ++ [r.1] }

/-- Embedding of the outer batch loop of download_batch_stocks
(DataStore.py lines 100-128): the batches are dispatched one after the
other into the shared accumulator (the sleep between batches has no effect
on the data flow). -/
def processBatches (fetch : Nat → String → Option Table) :
    List (List String) → BatchAcc → BatchAcc
  | [], acc => acc
  | b :: bs, acc => processBatches fetch bs (dispatchBatch fetch 0 b acc)

/-- State of download_batch_stocks after the first dispatch over all
batches and before the retry pass (DataStore.py lines 94-128). -/
def firstPass (fetch : Nat → String → Option Table) (tickers : List String) : BatchAcc :=
  processBatches fetch (batches BATCH_SIZE tickers) ⟨[], [], []⟩

/-- Result of download_batch_stocks, together with the bookkeeping needed
by the claims: the network calls issued and whether the retry block ran. -/
structure DownloadResult where
  all_data : List (String × Table)
  failed : List String
  calls : List String
  retried : Bool
deriving Repr

/-- Embedding of download_batch_stocks (DataStore.py lines 92-157): first
dispatch over all batches, then, guarded by `if failed:`, one retry pass
over the failed tickers whose still failing tickers replace the failed
list. -/
def download_batch_stocks (fetch : Nat → String → Option Table)
    (tickers : List String) : DownloadResult :=
  let fp := firstPass fetch tickers
  if fp.failed.isEmpty then
    ⟨fp.all_data, fp.failed, fp.calls, false⟩
  else
    let r := dispatchBatch fetch 1 fp.failed ⟨fp.all_data, [], fp.calls⟩
    ⟨r.all_data, r.failed, r.calls, true⟩

/-- Whether the retry block of download_batch_stocks executed. -/
def retryAttempted (fetch : Nat → String → Option Table) (tickers : List String) : Bool :=
  (download_batch_stocks fetch tickers).retried

/-- Observable outcome of one run of the __main__ block. -/
structure RunTrace where
  calls : List String
  savedFile : Bool
  saved : List (String × SavedVal)
deriving Repr

/-- Embedding of the __main__ block of DataStore.py (lines 210-219) from
the point where read_stock_list has produced `tickers`: an empty ticker
list short circuits before any download or save (`if not tickers`);
otherwise the batch download runs and its all_data dict is saved. -/
def mainRun (fetch : Nat → String → Option Table) (tickers : List String) : RunTrace :=
  if tickers.isEmpty then
    ⟨[], false, []⟩
  else
    let r := download_batch_stocks fetch tickers
    ⟨r.calls, true, save_stock_data (r.all_data.map (fun p => (p.1, PyVal.df p.2)))⟩

theorem dispatchBatch_calls (fetch : Nat → String → Option Table) (attempt : Nat)
    (b : List String) (acc : BatchAcc) :
    (dispatchBatch fetch attempt b acc).calls = acc.calls ++ b := by
  induction b generalizing acc with
  | nil => simp [dispatchBatch]
  | cons t rest ih =>
    simp only [dispatchBatch, download_single_stock]
    cases h : fetch attempt t with
    | some d => simp [ih]
    | none => simp [ih]

theorem dispatchBatch_failed (fetch : Nat → String → Option Table) (attempt : Nat)
    (b : List String) (acc : BatchAcc) :
    (dispatchBatch fetch attempt b acc).failed =
      acc.failed ++ b.filter (fun t => (fetch attempt t).isNone) := by
  induction b generalizing acc with
  | nil => simp [dispatchBatch]
  | cons t rest ih =>
    simp only [dispatchBatch, download_single_stock]
    cases h : fetch attempt t with
    | some d => simp [h, ih, List.filter_cons]
    | none => simp [h, ih, List.filter_cons]

theorem dispatchBatch_keys (fetch : Nat → String → Option Table) (attempt : Nat)
    (b : List String) (acc : BatchAcc) (s : String) :
    s ∈ keysOf (dispatchBatch fetch attempt b acc).all_data ↔
      s ∈ keysOf acc.all_data ∨ (s ∈ b ∧ (fetch attempt s).isSome) := by
  induction b generalizing acc with
  | nil => simp [dispatchBatch]
  | cons t rest ih =>
    simp only [dispatchBatch, download_single_stock]
    cases h : fetch attempt t with
    | some d =>
      rw [ih]
      rw [mem_keysOf_dictInsert]
      simp only [List.mem_cons]
      by_cases hs : s = t
      · subst hs
        simp [h]
      · simp only [hs, or_false, false_or]
    | none =>
      rw [ih]
      simp only [List.mem_cons]
      by_cases hs : s = t
      · subst hs
        simp [h]
      · simp only [hs, false_or]

theorem dispatchBatch_mem_all_data (fetch : Nat → String → Option Table) (attempt : Nat)
    (b : List String) (acc : BatchAcc) (x : String × Table) :
    x ∈ (dispatchBatch fetch attempt b acc).all_data →
      x ∈ acc.all_data ∨ (x.1 ∈ b ∧ fetch attempt x.1 = some x.2) := by
  induction b generalizing acc with
  | nil =>
    intro hx
    exact Or.inl hx
  | cons t rest ih =>
    simp only [dispatchBatch, download_single_stock]
    cases h : fetch attempt t with
    | some d =>
      intro hx
      rcases ih _ hx with hx' | hx'
      · rcases mem_dictInsert _ _ _ _ hx' with hx'' | hx''
        · exact Or.inl hx''
        · refine Or.inr ⟨?_, ?_⟩
          · rw [hx'']
            exact List.mem_cons_self t rest
          · rw [hx'']
            simpa [hx''] using h
      · exact Or.inr ⟨List.mem_cons_of_mem t hx'.1, hx'.2⟩
    | none =>
      intro hx
      rcases ih _ hx with hx' | hx'
      · exact Or.inl hx'
      · exact Or.inr ⟨List.mem_cons_of_mem t hx'.1, hx'.2⟩

theorem processBatches_calls (fetch : Nat → String → Option Table)
    (bs : List (List String)) (acc : BatchAcc) :
    (processBatches fetch bs acc).calls = acc.calls ++ bs.flatten := by
  induction bs generalizing acc with
  | nil => simp [processBatches]
  | cons b bs ih =>
    simp only [processBatches]
    rw [ih, dispatchBatch_calls]
    simp

theorem processBatches_failed (fetch : Nat → String → Option Table)
    (bs : List (List String)) (acc : BatchAcc) :
    (processBatches fetch bs acc).failed =
      acc.failed ++ bs.flatten.filter (fun t => (fetch 0 t).isNone) := by
  induction bs generalizing acc with
  | nil => simp [processBatches]
  | cons b bs ih =>
    simp only [processBatches]
    rw [ih, dispatchBatch_failed]
    simp [List.filter_append]

theorem processBatches_keys (fetch : Nat → String → Option Table)
    (bs : List (List String)) (acc : BatchAcc) (s : String) :
    s ∈ keysOf (processBatches fetch bs acc).all_data ↔
      s ∈ keysOf acc.all_data ∨ (s ∈ bs.flatten ∧ (fetch 0 s).isSome) := by
  induction bs generalizing acc with
  | nil => simp [processBatches]
  | cons b bs ih =>
    simp only [processBatches]
    rw [ih, dispatchBatch_keys]
    simp only [List.flatten_cons, List.mem_append]
    tauto

theorem processBatches_mem_all_data (fetch : Nat → String → Option Table)
    (bs : List (List String)) (acc : BatchAcc) (x : String × Table) :
    x ∈ (processBatches fetch bs acc).all_data →
      x ∈ acc.all_data ∨ (x.1 ∈ bs.flatten ∧ fetch 0 x.1 = some x.2) := by
  induction bs generalizing acc with
  | nil =>
    intro hx
    exact Or.inl hx
  | cons b bs ih =>
    simp only [processBatches]
    intro hx
    rcases ih _ hx with hx' | hx'
    · rcases dispatchBatch_mem_all_data _ _ _ _ _ hx' with hx'' | hx''
      · exact Or.inl hx''
      · refine Or.inr ⟨?_, hx''.2⟩
        simp only [List.flatten_cons, List.mem_append]
        exact Or.inl hx''.1
    · refine Or.inr ⟨?_, hx'.2⟩
      simp only [List.flatten_cons, List.mem_append]
      exact Or.inr hx'.1

theorem BATCH_SIZE_pos : 0 < BATCH_SIZE := by
  unfold BATCH_SIZE
  omega

theorem firstPass_calls (fetch : Nat → String → Option Table) (tickers : List String) :
    (firstPass fetch tickers).calls = tickers := by
  unfold firstPass
  rw [processBatches_calls]
  simp [batches_join BATCH_SIZE BATCH_SIZE_pos]

theorem firstPass_failed (fetch : Nat → String → Option Table) (tickers : List String) :
    (firstPass fetch tickers).failed =
      tickers.filter (fun t => (fetch 0 t).isNone) := by
  unfold firstPass
  rw [processBatches_failed]
  simp [batches_join BATCH_SIZE BATCH_SIZE_pos]

theorem firstPass_keys (fetch : Nat → String → Option Table) (tickers : List String)
    (s : String) :
    s ∈ keysOf (firstPass fetch tickers).all_data ↔
      s ∈ tickers ∧ (fetch 0 s).isSome := by
  unfold firstPass
  rw [processBatches_keys]
  simp [batches_join BATCH_SIZE BATCH_SIZE_pos, keysOf]

theorem firstPass_mem_all_data (fetch : Nat → String → Option Table)
    (tickers : List String) (x : String × Table) :
    x ∈ (firstPass fetch tickers).all_data →
      x.1 ∈ tickers ∧ fetch 0 x.1 = some x.2 := by
  unfold firstPass
  intro hx
  rcases processBatches_mem_all_data _ _ _ _ hx with hx' | hx'
  · simp at hx'
  · rwa [batches_join BATCH_SIZE BATCH_SIZE_pos] at hx'

theorem download_eq (fetch : Nat → String → Option Table) (tickers : List String) :
    download_batch_stocks fetch tickers =
      if (firstPass fetch tickers).failed.isEmpty then
        ⟨(firstPass fetch tickers).all_data, (firstPass fetch tickers).failed,
          (firstPass fetch tickers).calls, false⟩
      else
        ⟨(dispatchBatch fetch 1 (firstPass fetch tickers).failed
            ⟨(firstPass fetch tickers).all_data, [], (firstPass fetch tickers).calls⟩).all_data,
          (dispatchBatch fetch 1 (firstPass fetch tickers).failed
            ⟨(firstPass fetch tickers).all_data, [], (firstPass fetch tickers).calls⟩).failed,
          (dispatchBatch fetch 1 (firstPass fetch tickers).failed
            ⟨(firstPass fetch tickers).all_data, [], (firstPass fetch tickers).calls⟩).calls,
          true⟩ := rfl

theorem download_failed (fetch : Nat → String → Option Table) (tickers : List String) :
    (download_batch_stocks fetch tickers).failed =
      (tickers.filter (fun t => (fetch 0 t).isNone)).filter
        (fun t => (fetch 1 t).isNone) := by
  rw [download_eq]
  by_cases h : (firstPass fetch tickers).failed.isEmpty = true
  · rw [if_pos h]
    dsimp only
    rw [firstPass_failed] at h ⊢
    rw [List.isEmpty_iff] at h
    rw [h]
    simp
  · rw [if_neg h]
    dsimp only
    rw [dispatchBatch_failed]
    rw [firstPass_failed]
    simp

theorem download_keys (fetch : Nat → String → Option Table) (tickers : List String)
    (s : String) :
    s ∈ keysOf (download_batch_stocks fetch tickers).all_data ↔
      s ∈ tickers ∧
        ((fetch 0 s).isSome ∨ ((fetch 0 s).isNone ∧ (fetch 1 s).isSome)) := by
  rw [download_eq]
  by_cases h : (firstPass fetch tickers).failed.isEmpty = true
  · rw [if_pos h]
    dsimp only
    rw [firstPass_keys]
    rw [firstPass_failed, List.isEmpty_iff, List.filter_eq_nil_iff] at h
    constructor
    · intro ⟨ht, hsome⟩
      exact ⟨ht, Or.inl hsome⟩
    · intro ⟨ht, hsome⟩
      refine ⟨ht, ?_⟩
      rcases hsome with hsome | ⟨hnone, _⟩
      · exact hsome
      · exact absurd hnone (by simpa using h s ht)
  · rw [if_neg h]
    dsimp only
    rw [dispatchBatch_keys, firstPass_keys, firstPass_failed]
    simp only [List.mem_filter]
    constructor
    · rintro (⟨ht, hsome⟩ | ⟨⟨ht, hnone⟩, hsome1⟩)
      · exact ⟨ht, Or.inl hsome⟩
      · exact ⟨ht, Or.inr ⟨by simpa using hnone, hsome1⟩⟩
    · rintro ⟨ht, hsome | ⟨hnone, hsome1⟩⟩
      · exact Or.inl ⟨ht, hsome⟩
      · exact Or.inr ⟨⟨ht, by simpa using hnone⟩, hsome1⟩

theorem download_retried_iff (fetch : Nat → String → Option Table) (tickers : List String) :
    (download_batch_stocks fetch tickers).retried = true ↔
      (firstPass fetch tickers).failed ≠ [] := by
  rw [download_eq]
  by_cases h : (firstPass fetch tickers).failed.isEmpty = true
  · rw [if_pos h]
    dsimp only
    simp [List.isEmpty_iff.mp h]
  · rw [if_neg h]
    dsimp only
    constructor
    · intro _ hc
      rw [hc] at h
      simp at h
    · intro _
      rfl

/-- The whole per-entry action of save_stock_data: clean the key, convert
the value. -/
def convertEntry (p : String × PyVal) : String × SavedVal :=
  (stripNS p.1, saveEntryVal p.2)

theorem convertEntry_fst (p : String × PyVal) : (convertEntry p).1 = stripNS p.1 := by
  unfold convertEntry
  simp

theorem save_foldl_eq_map (d : List (String × PyVal)) :
    ∀ cd : List (String × SavedVal),
      (keysOf cd ++ d.map (fun p => stripNS p.1)).Nodup →
      d.foldl (fun cd p => dictInsert cd (stripNS p.1) (saveEntryVal p.2)) cd =
        cd ++ d.map convertEntry := by
  induction d with
  | nil =>
    intro cd _
    simp
  | cons p rest ih =>
    intro cd h
    simp only [List.foldl_cons, List.map_cons]
    have hsplit : keysOf cd ++ stripNS p.1 :: rest.map (fun p => stripNS p.1) =
        (keysOf cd ++ [stripNS p.1]) ++ rest.map (fun p => stripNS p.1) := by
      simp
    rw [List.map_cons, hsplit] at h
    have hk : stripNS p.1 ∉ keysOf cd := by
      intro hmem
      have h₁ : (keysOf cd ++ [stripNS p.1]).Nodup := (List.nodup_append.mp h).1
      rcases List.nodup_append.mp h₁ with ⟨_, _, hdisj⟩
      exact hdisj hmem (List.mem_singleton_self _)
    rw [dictInsert_not_mem cd (stripNS p.1) (saveEntryVal p.2) hk]
    have hkeys : keysOf (cd ++ [(stripNS p.1, saveEntryVal p.2)]) =
        keysOf cd ++ [stripNS p.1] := by
      rw [keysOf_append]
      rfl
    rw [ih (cd ++ [(stripNS p.1, saveEntryVal p.2)]) (by rw [hkeys]; exact h)]
    simp [convertEntry]

theorem save_stock_data_eq_map (d : List (String × PyVal))
    (h : (d.map (fun p => stripNS p.1)).Nodup) :
    save_stock_data d = d.map convertEntry := by
  unfold save_stock_data
  rw [save_foldl_eq_map d [] (by simpa [keysOf] using h)]
  simp

theorem save_stock_data_mem (d : List (String × PyVal)) (x : String × SavedVal) :
    x ∈ save_stock_data d → ∃ p ∈ d, x = convertEntry p := by
  unfold save_stock_data
  have H : ∀ (l : List (String × PyVal)) (cd : List (String × SavedVal)),
      x ∈ l.foldl (fun cd p => dictInsert cd (stripNS p.1) (saveEntryVal p.2)) cd →
      x ∈ cd ∨ ∃ p ∈ l, x = convertEntry p := by
    intro l
    induction l with
    | nil =>
      intro cd hx
      exact Or.inl hx
    | cons p rest ih =>
      intro cd hx
      simp only [List.foldl_cons] at hx
      rcases ih _ hx with hx' | hx'
      · rcases mem_dictInsert _ _ _ _ hx' with hx'' | hx''
        · exact Or.inl hx''
        · exact Or.inr ⟨p, List.mem_cons_self p rest, hx''⟩
      · rcases hx' with ⟨q, hq, hxq⟩
        exact Or.inr ⟨q, List.mem_cons_of_mem p hq, hxq⟩
  intro hx
  rcases H d [] hx with hx' | hx'
  · simp at hx'
  · exact hx'

theorem fromSplit_toSplit (t : Table) : fromSplit (toSplit t) = t := rfl

theorem localizeIfNeeded_index (t : Table) : (localizeIfNeeded t).index = t.index := by
  unfold localizeIfNeeded
  by_cases h : t.idxTz.isSome
  · rw [if_pos h]
  · rw [if_neg h]

theorem localizeIfNeeded_columns (t : Table) : (localizeIfNeeded t).columns = t.columns := by
  unfold localizeIfNeeded
  by_cases h : t.idxTz.isSome
  · rw [if_pos h]
  · rw [if_neg h]

theorem localizeIfNeeded_data (t : Table) : (localizeIfNeeded t).data = t.data := by
  unfold localizeIfNeeded
  by_cases h : t.idxTz.isSome
  · rw [if_pos h]
  · rw [if_neg h]

theorem localizeIfNeeded_tz (t : Table) : (localizeIfNeeded t).idxTz.isSome := by
  unfold localizeIfNeeded
  by_cases h : t.idxTz.isSome
  · rw [if_pos h]
    exact h
  · rw [if_neg h]
    rfl

/-- Two rationals agree within the rounding tolerance of 2 decimal
places. -/
def within2dp (a b : Rat) : Prop :=
  |a - b| ≤ 1 / 100

/-- Tables equal within the rounding tolerance of 2 decimal places: same
timestamp labels, same columns, and every value within the tolerance.
Timezone attachment performed by the Serializer is the documented
normalization and is not a value difference. -/
def tableApprox (a b : Table) : Prop :=
  a.index = b.index ∧ a.columns = b.columns ∧
    List.Forall₂ (List.Forall₂ within2dp) a.data b.data

theorem within2dp_refl (a : Rat) : within2dp a a := by
  unfold within2dp
  simp

theorem tableApprox_localize (t : Table) : tableApprox (localizeIfNeeded t) t := by
  refine ⟨localizeIfNeeded_index t, localizeIfNeeded_columns t, ?_⟩
  rw [localizeIfNeeded_data]
  apply List.forall₂_same.mpr
  intro row _
  apply List.forall₂_same.mpr
  intro a _
  exact within2dp_refl a

/-- C1: for every symbol list of length L and batch size B > 0, the
batching loop of download_batch_stocks partitions the list into
ceil(L/B) = (L + B - 1) / B consecutive slices, each of length at most B,
whose concatenation in order equals the original list. -/
theorem C1_batcher_partitions (B : Nat) (hB : 0 < B) (l : List String) :
    (batches B l).length = (l.length + B - 1) / B ∧
    (∀ b ∈ batches B l, b.length ≤ B) ∧
    (batches B l).flatten = l :=
  ⟨batches_length B hB l, batches_sizes B l, batches_join B hB l⟩

/-- Witness for C1 at batch size 2 and a three-element list. -/
theorem C1_batcher_partitions_witness :
    0 < 2 ∧
    ((batches 2 ["TCS.NS", "RELIANCE.NS", "INFY.NS"]).length =
        ((["TCS.NS", "RELIANCE.NS", "INFY.NS"] : List String).length + 2 - 1) / 2 ∧
      (∀ b ∈ batches 2 ["TCS.NS", "RELIANCE.NS", "INFY.NS"], b.length ≤ 2) ∧
      (batches 2 ["TCS.NS", "RELIANCE.NS", "INFY.NS"]).flatten =
        ["TCS.NS", "RELIANCE.NS", "INFY.NS"]) :=
  ⟨by decide, C1_batcher_partitions 2 (by decide) ["TCS.NS", "RELIANCE.NS", "INFY.NS"]⟩

/-- C5 counterexample: read_stock_list applies no denylist, so for the
input list TCS, RELIANCE, DELISTEDCO the normalized DELISTEDCO.NS ticker
IS handed to the Dispatcher, and with batch size 2 the dispatched batches
are two, not the single batch [TCS.NS, RELIANCE.NS] the claim requires. -/
theorem C5_delisted_is_dispatched :
    "DELISTEDCO.NS" ∈ read_stock_list (some ["TCS", "RELIANCE", "DELISTEDCO"]) ∧
    batches 2 (read_stock_list (some ["TCS", "RELIANCE", "DELISTEDCO"])) =
      [["TCS.NS", "RELIANCE.NS"], ["DELISTEDCO.NS"]] := by
  have hlist : read_stock_list (some ["TCS", "RELIANCE", "DELISTEDCO"]) =
      ["TCS.NS", "RELIANCE.NS", "DELISTEDCO.NS"] := by decide
  rw [hlist]
  constructor
  · decide
  · rw [batches_cons 2 (by decide)]
    rw [show List.drop 2 ["TCS.NS", "RELIANCE.NS", "DELISTEDCO.NS"] =
      ["DELISTEDCO.NS"] from rfl]
    rw [batches_cons 2 (by decide)]
    rw [show List.drop 2 ["DELISTEDCO.NS"] = ([] : List String) from rfl]
    rw [batches_nil]
    rfl

/-- C5 amended: there is no denylist of delisted symbols anywhere in
read_stock_list; every symbol of the input list appears, suffix
normalized, in the ticker list handed to the Dispatcher. -/
theorem C5_no_denylist (rows : List String) (t : String) (ht : t ∈ rows) :
    normalizeTicker t ∈ read_stock_list (some rows) := by
  unfold read_stock_list
  exact List.mem_map_of_mem normalizeTicker ht

/-- Witness for C5 amended: DELISTEDCO itself reaches the Dispatcher. -/
theorem C5_no_denylist_witness :
    "DELISTEDCO" ∈ ["TCS", "RELIANCE", "DELISTEDCO"] ∧
    normalizeTicker "DELISTEDCO" ∈ read_stock_list (some ["TCS", "RELIANCE", "DELISTEDCO"]) :=
  ⟨by decide, C5_no_denylist ["TCS", "RELIANCE", "DELISTEDCO"] "DELISTEDCO" (by decide)⟩

/-- C7: for an empty ticker list, the run issues no network calls, writes
no output file and returns normally (mainRun is a total function and its
empty-list branch short circuits before the downloader and the
serializer). -/
theorem C7_empty_input_clean_exit (fetch : Nat → String → Option Table) :
    mainRun fetch [] = ⟨[], false, []⟩ := by
  unfold mainRun
  simp

/-- C9 counterexample: on a Saturday (weekday 5) with the force flag set,
check_should_run returns false, because the weekend check runs before the
force-run check; the claim requires true regardless of the weekday. -/
theorem C9_force_does_not_bypass_weekend :
    check_should_run 5 true 9 30 = false := by
  decide

/-- C9 amended: when the force-run flag is set, check_should_run returns
the run decision regardless of the time-of-day window, but only on
weekdays; the weekend check precedes the force check and still skips. -/
theorem C9_force_run_weekdays (weekday hour minute : Nat) (hwd : weekday < 5) :
    check_should_run weekday true hour minute = true := by
  unfold check_should_run
  rw [if_neg (by omega)]
  simp

/-- Witness for C9 amended: Wednesday far outside the run window. -/
theorem C9_force_run_weekdays_witness :
    2 < 5 ∧ check_should_run 2 true 15 0 = true :=
  ⟨by decide, C9_force_run_weekdays 2 15 0 (by decide)⟩

/-- C4 counterexample: there is no failure-count ceiling for the retry
pass.  For every candidate ceiling C there is a run whose first dispatch
leaves at least C failed symbols and whose retry block nevertheless runs,
so no ceiling makes the claim true. -/
theorem C4_no_retry_ceiling :
    ¬ ∃ C : Nat, ∀ (fetch : Nat → String → Option Table) (tickers : List String),
        C ≤ (firstPass fetch tickers).failed.length →
          retryAttempted fetch tickers = false := by
  rintro ⟨C, h⟩
  have hfail : (firstPass (fun _ _ => none) (List.replicate (C + 1) "A")).failed =
      List.replicate (C + 1) "A" := by
    rw [firstPass_failed]
    apply List.filter_eq_self.mpr
    intro a _
    rfl
  have hlen : C ≤ (firstPass (fun _ _ => none) (List.replicate (C + 1) "A")).failed.length := by
    rw [hfail]
    simp
  have hfalse := h (fun _ _ => none) (List.replicate (C + 1) "A") hlen
  have htrue : retryAttempted (fun _ _ => none) (List.replicate (C + 1) "A") = true := by
    unfold retryAttempted
    rw [download_retried_iff]
    rw [hfail]
    simp
  rw [hfalse] at htrue
  exact Bool.noConfusion htrue

/-- C4 amended: the retry pass runs exactly when the failed list left by
the first dispatch is nonempty; the failed count is never compared to any
ceiling, so retry is skipped only when nothing failed. -/
theorem C4_retry_iff_failures (fetch : Nat → String → Option Table)
    (tickers : List String) :
    retryAttempted fetch tickers = true ↔ (firstPass fetch tickers).failed ≠ [] := by
  unfold retryAttempted
  exact download_retried_iff fetch tickers

/-- C3: a symbol whose fetch always fails is in the failed list after the
first dispatch over all batches, is still in the failed list returned
after the retry pass, and never receives a table in the result mapping. -/
theorem C3_always_failing_symbol (fetch : Nat → String → Option Table)
    (tickers : List String) (s : String) (hs : s ∈ tickers)
    (hf : ∀ n, fetch n s = none) :
    s ∈ (firstPass fetch tickers).failed ∧
    s ∈ (download_batch_stocks fetch tickers).failed ∧
    s ∉ keysOf (download_batch_stocks fetch tickers).all_data := by
  have h0 : ((fetch 0 s).isNone : Bool) = true := by
    rw [hf 0]
    rfl
  have h1 : ((fetch 1 s).isNone : Bool) = true := by
    rw [hf 1]
    rfl
  refine ⟨?_, ?_, ?_⟩
  · rw [firstPass_failed]
    exact List.mem_filter.mpr ⟨hs, h0⟩
  · rw [download_failed]
    exact List.mem_filter.mpr ⟨List.mem_filter.mpr ⟨hs, h0⟩, h1⟩
  · intro hmem
    rcases (download_keys fetch tickers s).mp hmem with ⟨_, hsome | ⟨_, hsome1⟩⟩
    · rw [hf 0] at hsome
      exact Bool.noConfusion hsome
    · rw [hf 1] at hsome1
      exact Bool.noConfusion hsome1

/-- Witness for C3 at a single symbol whose fetch always fails. -/
theorem C3_always_failing_symbol_witness :
    ("FAIL.NS" ∈ ["FAIL.NS"] ∧
      (∀ n, (fun (_ : Nat) (_ : String) => (none : Option Table)) n "FAIL.NS" = none)) ∧
    ("FAIL.NS" ∈ (firstPass (fun _ _ => none) ["FAIL.NS"]).failed ∧
      "FAIL.NS" ∈ (download_batch_stocks (fun _ _ => none) ["FAIL.NS"]).failed ∧
      "FAIL.NS" ∉ keysOf (download_batch_stocks (fun _ _ => none) ["FAIL.NS"]).all_data) :=
  ⟨⟨by decide, fun _ => rfl⟩,
    C3_always_failing_symbol (fun _ _ => none) ["FAIL.NS"] "FAIL.NS" (by decide) (fun _ => rfl)⟩

/-- C10: for a list of distinct tickers, the result mapping keys and the
failed list partition the input: every input ticker lands in exactly one
of the two, and neither side mentions a symbol outside the input. -/
theorem C10_partition (fetch : Nat → String → Option Table) (tickers : List String)
    (_hnd : tickers.Nodup) (s : String) :
    (s ∈ tickers ↔
      (s ∈ keysOf (download_batch_stocks fetch tickers).all_data ∨
        s ∈ (download_batch_stocks fetch tickers).failed)) ∧
    ¬(s ∈ keysOf (download_batch_stocks fetch tickers).all_data ∧
      s ∈ (download_batch_stocks fetch tickers).failed) := by
  rw [download_keys, download_failed]
  constructor
  · constructor
    · intro hsT
      cases hc0 : fetch 0 s with
      | some d0 =>
        exact Or.inl ⟨hsT, Or.inl rfl⟩
      | none =>
        cases hc1 : fetch 1 s with
        | some d1 =>
          exact Or.inl ⟨hsT, Or.inr ⟨rfl, rfl⟩⟩
        | none =>
          refine Or.inr (List.mem_filter.mpr ⟨List.mem_filter.mpr ⟨hsT, ?_⟩, ?_⟩)
          · simp only [hc0]
            rfl
          · simp only [hc1]
            rfl
    · rintro (⟨hsT, _⟩ | hmem)
      · exact hsT
      · exact (List.mem_filter.mp (List.mem_filter.mp hmem).1).1
  · rintro ⟨⟨_, hsome⟩, hmem⟩
    have h0 := (List.mem_filter.mp (List.mem_filter.mp hmem).1).2
    have h1 := (List.mem_filter.mp hmem).2
    simp only [Option.isNone_iff_eq_none] at h0 h1
    rcases hsome with hs0 | ⟨_, hs1⟩
    · rw [h0] at hs0
      exact Bool.noConfusion hs0
    · rw [h1] at hs1
      exact Bool.noConfusion hs1

/-- Witness for C10 with two distinct tickers, one succeeding and one
failing. -/
theorem C10_partition_witness :
    (["A.NS", "B.NS"] : List String).Nodup ∧
    ((("A.NS" : String) ∈ ["A.NS", "B.NS"] ↔
      ("A.NS" ∈ keysOf (download_batch_stocks
          (fun _ t => if t = "A.NS" then some ⟨[0], none, ["Close"], [[1]]⟩ else none)
          ["A.NS", "B.NS"]).all_data ∨
        "A.NS" ∈ (download_batch_stocks
          (fun _ t => if t = "A.NS" then some ⟨[0], none, ["Close"], [[1]]⟩ else none)
          ["A.NS", "B.NS"]).failed)) ∧
      ¬("A.NS" ∈ keysOf (download_batch_stocks
          (fun _ t => if t = "A.NS" then some ⟨[0], none, ["Close"], [[1]]⟩ else none)
          ["A.NS", "B.NS"]).all_data ∧
        "A.NS" ∈ (download_batch_stocks
          (fun _ t => if t = "A.NS" then some ⟨[0], none, ["Close"], [[1]]⟩ else none)
          ["A.NS", "B.NS"]).failed)) :=
  ⟨by decide,
    C10_partition
      (fun _ t => if t = "A.NS" then some ⟨[0], none, ["Close"], [[1]]⟩ else none)
      ["A.NS", "B.NS"] (by decide) "A.NS"⟩

/-- C2: every table in a collection saved by save_stock_data comes back
from load_stock_data, under its cleaned key, equal within the 2 decimal
rounding tolerance to the table that was saved (in fact the values come
back exactly; the only normalization is the timezone attachment the
Serializer documents).  The distinctness hypothesis says the cleaned keys
do not collide, which is what makes every entry of the input an entry of
the written dict. -/
theorem C2_save_load_roundtrip (stock_data : List (String × PyVal))
    (hnd : (stock_data.map (fun p => stripNS p.1)).Nodup)
    (k : String) (t : Table) (hmem : (k, PyVal.df t) ∈ stock_data) :
    ∃ t' : Table,
      (stripNS k, PyVal.df t') ∈ load_stock_data (save_stock_data stock_data) ∧
      tableApprox t' t := by
  refine ⟨localizeIfNeeded t, ?_, tableApprox_localize t⟩
  rw [save_stock_data_eq_map stock_data hnd]
  unfold load_stock_data
  rw [List.map_map]
  apply List.mem_map.mpr
  refine ⟨(k, PyVal.df t), hmem, ?_⟩
  simp [convertEntry, saveEntryVal, Function.comp, fromSplit, toSplit]

/-- Witness for C2 on a one-table collection. -/
theorem C2_save_load_roundtrip_witness :
    (([("TCS.NS", PyVal.df ⟨[1, 2], none, ["Close"], [[10], [11]]⟩)].map
        (fun p => stripNS p.1)).Nodup ∧
      ("TCS.NS", PyVal.df ⟨[1, 2], none, ["Close"], [[10], [11]]⟩) ∈
        [("TCS.NS", PyVal.df ⟨[1, 2], none, ["Close"], [[10], [11]]⟩)]) ∧
    (∃ t' : Table,
      (stripNS "TCS.NS", PyVal.df t') ∈
        load_stock_data (save_stock_data
          [("TCS.NS", PyVal.df ⟨[1, 2], none, ["Close"], [[10], [11]]⟩)]) ∧
      tableApprox t' ⟨[1, 2], none, ["Close"], [[10], [11]]⟩) :=
  ⟨⟨by simp, by simp⟩,
    C2_save_load_roundtrip
      [("TCS.NS", PyVal.df ⟨[1, 2], none, ["Close"], [[10], [11]]⟩)]
      (by simp) "TCS.NS" ⟨[1, 2], none, ["Close"], [[10], [11]]⟩ (by simp)⟩

/-- C8: if the raw tables satisfy the Price Table invariant (strictly
increasing date index), then every split table written by save_stock_data
has a timezone aware and strictly increasing date index, whatever the
timezone (or absence of one) of the raw input index. -/
theorem C8_saved_index_normalized (stock_data : List (String × PyVal))
    (hinc : ∀ k t, (k, PyVal.df t) ∈ stock_data → t.index.Chain' (· < ·))
    (k : String) (s : Split)
    (hmem : (k, SavedVal.split s) ∈ save_stock_data stock_data) :
    s.idxTz.isSome = true ∧ s.index.Chain' (· < ·) := by
  rcases save_stock_data_mem stock_data _ hmem with ⟨p, hp, heq⟩
  match p, hp, heq with
  | (k0, PyVal.df t), hp, heq =>
    have hs : s = toSplit (localizeIfNeeded t) := by
      have h2 := congrArg Prod.snd heq
      simp only [convertEntry, saveEntryVal] at h2
      exact SavedVal.split.inj h2
    constructor
    · rw [hs]
      exact localizeIfNeeded_tz t
    · rw [hs]
      have hidx : (toSplit (localizeIfNeeded t)).index = t.index := by
        rw [show (toSplit (localizeIfNeeded t)).index = (localizeIfNeeded t).index from rfl]
        exact localizeIfNeeded_index t
      rw [hidx]
      exact hinc k0 t hp
  | (k0, PyVal.other n), hp, heq =>
    exfalso
    have h2 := congrArg Prod.snd heq
    simp only [convertEntry, saveEntryVal] at h2
    exact SavedVal.noConfusion h2

/-- Witness for C8 on one naive-timezone table with increasing index. -/
theorem C8_saved_index_normalized_witness :
    ((∀ k t, (k, PyVal.df t) ∈
        [("TCS.NS", PyVal.df ⟨[1, 2, 3], none, ["Close"], [[10], [11], [12]]⟩)] →
        t.index.Chain' (· < ·)) ∧
      ("TCS", SavedVal.split (toSplit (localizeIfNeeded
          ⟨[1, 2, 3], none, ["Close"], [[10], [11], [12]]⟩))) ∈
        save_stock_data
          [("TCS.NS", PyVal.df ⟨[1, 2, 3], none, ["Close"], [[10], [11], [12]]⟩)]) ∧
    ((toSplit (localizeIfNeeded
        ⟨[1, 2, 3], none, ["Close"], [[10], [11], [12]]⟩)).idxTz.isSome = true ∧
      (toSplit (localizeIfNeeded
        ⟨[1, 2, 3], none, ["Close"], [[10], [11], [12]]⟩)).index.Chain' (· < ·)) := by
  have hkey : stripNS "TCS.NS" = "TCS" := by decide
  have hmem : ("TCS", SavedVal.split (toSplit (localizeIfNeeded
      ⟨[1, 2, 3], none, ["Close"], [[10], [11], [12]]⟩))) ∈
      save_stock_data
        [("TCS.NS", PyVal.df ⟨[1, 2, 3], none, ["Close"], [[10], [11], [12]]⟩)] := by
    rw [save_stock_data_eq_map _ (by simp)]
    simp only [List.map_cons, List.map_nil, convertEntry, saveEntryVal]
    rw [hkey]
    exact List.mem_singleton_self _
  have hinc : ∀ k t, (k, PyVal.df t) ∈
      [("TCS.NS", PyVal.df ⟨[1, 2, 3], none, ["Close"], [[10], [11], [12]]⟩)] →
      t.index.Chain' (· < ·) := by
    intro k t hm
    rcases List.mem_singleton.mp hm with heq
    have h2 := congrArg Prod.snd heq
    simp only at h2
    have h3 := PyVal.df.inj h2
    rw [h3]
    refine List.chain'_cons.mpr ⟨by norm_num, ?_⟩
    refine List.chain'_cons.mpr ⟨by norm_num, ?_⟩
    exact List.chain'_singleton 3
  exact ⟨⟨hinc, hmem⟩,
    C8_saved_index_normalized _ hinc "TCS" _ hmem⟩

theorem saveConvStep_error (conv : Table → Except Unit Split) (e : Unit)
    (p : String × PyVal) :
    saveConvStep conv (Except.error e) p = Except.error e := rfl

theorem saveConvStep_ok_df_error (conv : Table → Except Unit Split)
    (cd : List (String × SavedVal)) (k : String) (t : Table) (e : Unit)
    (hc : conv t = Except.error e) :
    saveConvStep conv (Except.ok cd) (k, PyVal.df t) = Except.error e := by
  unfold saveConvStep
  show (do
    let s ← conv t
    pure (dictInsert cd (stripNS k) (SavedVal.split s)) :
      Except Unit (List (String × SavedVal))) = Except.error e
  rw [hc]
  rfl

theorem save_foldl_error (conv : Table → Except Unit Split)
    (l : List (String × PyVal)) (e : Unit) :
    l.foldl (saveConvStep conv) (Except.error e) = Except.error e := by
  induction l with
  | nil => rfl
  | cons p rest ih =>
    rw [List.foldl_cons, saveConvStep_error]
    exact ih

theorem save_conv_error_aborts (conv : Table → Except Unit Split)
    (d : List (String × PyVal)) (k : String) (t : Table)
    (hmem : (k, PyVal.df t) ∈ d) (herr : conv t = Except.error ()) :
    save_stock_data_conv conv d = Except.error () := by
  unfold save_stock_data_conv
  have H : ∀ (l : List (String × PyVal)) (cd : List (String × SavedVal)),
      (k, PyVal.df t) ∈ l →
      l.foldl (saveConvStep conv) (Except.ok cd) = Except.error () := by
    intro l
    induction l with
    | nil =>
      intro cd hm
      simp at hm
    | cons p rest ih =>
      intro cd hm
      rcases List.mem_cons.mp hm with hm | hm
      · rw [List.foldl_cons, ← hm, saveConvStep_ok_df_error conv cd k t () herr]
        exact save_foldl_error conv rest ()
      · rw [List.foldl_cons]
        cases hstep : saveConvStep conv (Except.ok cd) p with
        | ok cd2 => exact ih cd2 hm
        | error e =>
          cases e
          exact save_foldl_error conv rest ()
  exact H d [] hmem

theorem optimize_foldl_eq (conv : PyVal → Except Unit PyVal)
    (d : List (String × PyVal)) :
    ∀ cd : List (String × PyVal),
      (keysOf cd ++ keysOf d).Nodup →
      d.foldl
        (fun cd p =>
          dictInsert cd p.1
            (match conv p.2 with
             | Except.ok c => c
             | Except.error _ => p.2))
        cd =
      cd ++ d.map (fun p => (p.1,
        match conv p.2 with
        | Except.ok c => c
        | Except.error _ => p.2)) := by
  induction d with
  | nil =>
    intro cd _
    simp
  | cons p rest ih =>
    intro cd h
    simp only [List.foldl_cons, List.map_cons]
    have hsplit : keysOf cd ++ keysOf (p :: rest) =
        (keysOf cd ++ [p.1]) ++ keysOf rest := by
      simp [keysOf]
    rw [hsplit] at h
    have hk : p.1 ∉ keysOf cd := by
      intro hmem
      have h₁ : (keysOf cd ++ [p.1]).Nodup := (List.nodup_append.mp h).1
      rcases List.nodup_append.mp h₁ with ⟨_, _, hdisj⟩
      exact hdisj hmem (List.mem_singleton_self _)
    rw [dictInsert_not_mem cd p.1 _ hk]
    have hkeys : keysOf (cd ++ [(p.1,
        match conv p.2 with
        | Except.ok c => c
        | Except.error _ => p.2)]) = keysOf cd ++ [p.1] := by
      rw [keysOf_append]
      rfl
    rw [ih _ (by rw [hkeys]; exact h)]
    simp

/-- Table used in the C6 counterexample whose pandas conversion raises. -/
def c6BadTable : Table := ⟨[0], none, ["BAD"], [[0]]⟩

/-- Table used in the C6 counterexample whose conversion succeeds. -/
def c6GoodTable : Table := ⟨[0], none, ["Open"], [[1]]⟩

/-- Conversion oracle for C6: raises exactly on the bad table. -/
def c6Conv : Table → Except Unit Split := fun t =>
  if t.columns = ["BAD"] then Except.error () else defaultConv t

/-- Input collection for C6: one convertible table, then one that
raises. -/
def c6Data : List (String × PyVal) :=
  [("GOOD.NS", PyVal.df c6GoodTable), ("BAD.NS", PyVal.df c6BadTable)]

/-- C6 counterexample: in save_stock_data one conversion error aborts the
WHOLE save (the try block wraps the loop and the write), so nothing is
written at all: the good symbol is not converted and no file is produced,
contradicting the per-symbol containment the claim describes. -/
theorem C6_conversion_error_aborts_save :
    save_stock_data_conv c6Conv c6Data = Except.error () :=
  save_conv_error_aborts c6Conv c6Data "BAD.NS" c6BadTable
    (by simp [c6Data]) (by rfl)

/-- C6 amended: a conversion error in save_stock_data aborts the whole
save and no file is written; the per-symbol catch that keeps the failing
value unconverted while the rest proceed is the behavior of the
optimize_pickle conversion loop, not of save_stock_data. -/
theorem C6_per_symbol_only_in_optimize :
    (∀ (conv : Table → Except Unit Split) (d : List (String × PyVal))
        (k : String) (t : Table),
        (k, PyVal.df t) ∈ d → conv t = Except.error () →
        save_stock_data_conv conv d = Except.error ()) ∧
    (∀ (conv : PyVal → Except Unit PyVal) (d : List (String × PyVal)),
        (keysOf d).Nodup →
        optimize_convert conv d =
          d.map (fun p => (p.1,
            match conv p.2 with
            | Except.ok c => c
            | Except.error _ => p.2))) := by
  constructor
  · exact save_conv_error_aborts
  · intro conv d h
    unfold optimize_convert
    rw [optimize_foldl_eq conv d [] (by simpa [keysOf] using h)]
    simp

/-- Witness for C6 amended: the aborting save on the concrete two-symbol
collection, and the optimize loop keeping the failing value while
converting its neighbor. -/
theorem C6_per_symbol_only_in_optimize_witness :
    (("BAD.NS", PyVal.df c6BadTable) ∈ c6Data ∧
      c6Conv c6BadTable = Except.error () ∧
      (keysOf [("A", PyVal.other 0), ("B", PyVal.other 1)]).Nodup) ∧
    save_stock_data_conv c6Conv c6Data = Except.error () ∧
    optimize_convert
        (fun v => if v = PyVal.other 0 then Except.error () else Except.ok v)
        [("A", PyVal.other 0), ("B", PyVal.other 1)] =
      [("A", PyVal.other 0), ("B", PyVal.other 1)] := by
  have hdata :
      optimize_convert
          (fun v => if v = PyVal.other 0 then Except.error () else Except.ok v)
          [("A", PyVal.other 0), ("B", PyVal.other 1)] =
        [("A", PyVal.other 0), ("B", PyVal.other 1)] := by
    rw [C6_per_symbol_only_in_optimize.2
      (fun v => if v = PyVal.other 0 then Except.error () else Except.ok v)
      [("A", PyVal.other 0), ("B", PyVal.other 1)] (by decide)]
    rfl
  refine ⟨⟨by simp [c6Data], rfl, by decide⟩, ?_, hdata⟩
  exact C6_per_symbol_only_in_optimize.1 c6Conv c6Data "BAD.NS" c6BadTable
    (by simp [c6Data]) rfl
